import Mathlib

/-!
Verification of the fuzztheory repository: a synthetic target generator
(src/src/main.rs, fn proggen) and a coverage guided fuzzing engine
(src/harness.rs, Fuzzer::start).  Machine integers are modelled as Nat with
explicit reductions mod 2^64 (the xorshift RNG state) and mod 2^8 (byte
values); the f64 uptime arithmetic is modelled exactly over the rationals.
-/

namespace Fuzztheory

/-! ## The xorshift RNG shared by both files

Both files define the same generator (harness.rs lines 10-23, main.rs lines
5-18): `rand` returns the current state and advances it by
`s ^= s << 13; s ^= s >> 17; s ^= s << 43` on a 64-bit `usize`. -/

/-- One advance of the xorshift state, on 64 bits. -/
def rngNext (s : Nat) : Nat :=
  let s1 := (s ^^^ (s <<< 13)) % 2 ^ 64
  let s2 := s1 ^^^ (s1 >>> 17)
  (s2 ^^^ (s2 <<< 43)) % 2 ^ 64

/-! ## Branch predicate mask and target (main.rs lines 188-197)

For an allocated bit range the generator computes
`start_bit = start % 8`, `end_bit = end % 8`,
`mask = (!0u8 >> start_bit) << start_bit` then
`mask = (mask << (7 - end_bit)) >> (7 - end_bit)` (u8 arithmetic, shifts
truncate), and `target = rng.rand() as u8 & mask`. -/

/-- The byte mask for a claimed bit range, per main.rs lines 189-194. -/
def mkMask (bitStart bitEnd : Nat) : Nat :=
  let startBit := bitStart % 8
  let endBit := bitEnd % 8
  let m1 := ((255 >>> startBit) <<< startBit) % 256
  ((m1 <<< (7 - endBit)) % 256) >>> (7 - endBit)

/-- The target value for a predicate: a random byte ANDed with the mask,
per main.rs line 197. -/
def mkTarget (r mask : Nat) : Nat := (r % 256) &&& mask

/-- C10: every branch predicate emitted by the generator is satisfiable:
the target is a random byte ANDed with the mask, hence
`target &&& mask = target`, and some byte value `v` (namely `target`
itself, which is below 256) satisfies `v &&& mask = target`, so the
generated branch can be taken. -/
theorem generated_predicate_satisfiable (r s e : Nat) :
    mkTarget r (mkMask s e) &&& mkMask s e = mkTarget r (mkMask s e) ∧
    ∃ v, v < 256 ∧ v &&& mkMask s e = mkTarget r (mkMask s e) := by
  have hand : mkTarget r (mkMask s e) &&& mkMask s e = mkTarget r (mkMask s e) := by
    unfold mkTarget
    apply Nat.eq_of_testBit_eq
    intro i
    simp [Nat.testBit_land, Bool.and_assoc]
  refine ⟨hand, ⟨mkTarget r (mkMask s e), ?_, hand⟩⟩
  have : mkTarget r (mkMask s e) ≤ r % 256 := by
    unfold mkTarget
    exact Nat.and_le_left
  exact lt_of_le_of_lt this (Nat.mod_lt _ (by norm_num))

/-! ## The bit allocator (main.rs lines 83-122, macro find_unused_bits)

The allocator repeatedly draws `bit_start = rng.rand() % MAX_INPUT_SIZE_BITS`
and `bit_end = bit_start + num_bits - 1`, rejects ranges that overflow the
input or straddle a byte boundary, rejects ranges containing an already used
bit, and otherwise inserts every bit of the range into `used_bits` and
returns the range.  It gives up, returning nothing, once `timeout` draws have
failed.  The loop counter `iters` is compared against the timeout before each
draw, so exactly `timeout` draws are attempted; we recurse on the number of
remaining draws. -/

/-- Maximum size of the input file in bits (main.rs line 35). -/
def MAX_INPUT_SIZE_BITS : Nat := 256

/-- The find_unused_bits search loop.  State threaded through: the RNG and
the set of used bits; returns the allocated range (if any) together with the
final RNG and used set. -/
def findUnusedBits (numBits : Nat) :
    Nat → Nat → Finset Nat → Option (Nat × Nat) × Nat × Finset Nat
  | 0, rng, used => (none, rng, used)
  | fuel + 1, rng, used =>
    let bitStart := rng % MAX_INPUT_SIZE_BITS
    let bitEnd := bitStart + numBits - 1
    if MAX_INPUT_SIZE_BITS ≤ bitEnd ∨ bitStart / 8 ≠ bitEnd / 8 then
      findUnusedBits numBits fuel (rngNext rng) used
    else if ∃ b ∈ List.range' bitStart (bitEnd + 1 - bitStart), b ∈ used then
      findUnusedBits numBits fuel (rngNext rng) used
    else
      (some (bitStart, bitEnd), rngNext rng,
        (List.range' bitStart (bitEnd + 1 - bitStart)).foldl
          (fun s b => insert b s) used)

/-- Folding insert over a list grows a Finset by the list's elements. -/
theorem foldl_insert_eq_union (l : List Nat) :
    ∀ used : Finset Nat,
      l.foldl (fun s b => insert b s) used = used ∪ l.toFinset := by
  induction l with
  | nil => intro used; simp
  | cons a l ih =>
    intro used
    simp only [List.foldl_cons, List.toFinset_cons, ih]
    ext b
    simp only [Finset.mem_union, Finset.mem_insert, List.mem_toFinset]
    tauto

/-- The elements of a nonempty range' list form the closed interval. -/
theorem range'_toFinset (s n : Nat) (hn : 1 ≤ n) :
    (List.range' s n).toFinset = Finset.Icc s (s + n - 1) := by
  ext b
  simp only [List.mem_toFinset, List.mem_range'_1, Finset.mem_Icc]
  omega

/-- On the failure path the allocator leaves the used set untouched. -/
theorem findUnusedBits_none (numBits : Nat) :
    ∀ (fuel rng : Nat) (used : Finset Nat) (rng2 : Nat) (used2 : Finset Nat),
      findUnusedBits numBits fuel rng used = (none, rng2, used2) →
      used2 = used := by
  intro fuel
  induction fuel with
  | zero =>
    intro rng used rng2 used2 h
    simp only [findUnusedBits, Prod.mk.injEq] at h
    exact h.2.2.symm
  | succ n ih =>
    intro rng used rng2 used2 h
    simp only [findUnusedBits] at h
    split at h
    · exact ih _ _ _ _ h
    · split at h
      · exact ih _ _ _ _ h
      · simp only [Prod.mk.injEq] at h
        exact absurd h.1 (by simp)

/-- On the success path the allocator returns an in-bounds, byte-aligned
range of the requested width, disjoint from the incoming used set, and marks
exactly that range as used. -/
theorem findUnusedBits_some (numBits : Nat) (hnb : 1 ≤ numBits) :
    ∀ (fuel rng : Nat) (used : Finset Nat) (s e rng2 : Nat) (used2 : Finset Nat),
      findUnusedBits numBits fuel rng used = (some (s, e), rng2, used2) →
      e = s + numBits - 1 ∧ e < MAX_INPUT_SIZE_BITS ∧ s / 8 = e / 8 ∧
      Disjoint (Finset.Icc s e) used ∧
      used2 = used ∪ Finset.Icc s e := by
  intro fuel
  induction fuel with
  | zero =>
    intro rng used s e rng2 used2 h
    simp only [findUnusedBits, Prod.mk.injEq] at h
    exact absurd h.1 (by simp)
  | succ n ih =>
    intro rng used s e rng2 used2 h
    simp only [findUnusedBits] at h
    split at h
    · exact ih _ _ _ _ _ _ h
    next hbounds =>
      split at h
      · exact ih _ _ _ _ _ _ h
      next hfree =>
        simp only [Prod.mk.injEq, Option.some.injEq] at h
        obtain ⟨⟨hs, he⟩, hrng, hused⟩ := h
        push_neg at hbounds hfree
        subst hs he
        have hle : rng % MAX_INPUT_SIZE_BITS ≤ rng % MAX_INPUT_SIZE_BITS + numBits - 1 := by
          omega
        have hwidth :
            rng % MAX_INPUT_SIZE_BITS + numBits - 1 + 1 - rng % MAX_INPUT_SIZE_BITS =
              numBits := by omega
        refine ⟨rfl, hbounds.1, hbounds.2, ?_, ?_⟩
        · rw [Finset.disjoint_left]
          intro b hb
          apply hfree b
          rw [List.mem_range'_1, hwidth]
          rw [Finset.mem_Icc] at hb
          omega
        · rw [← hused, foldl_insert_eq_union, hwidth,
            range'_toFinset (rng % MAX_INPUT_SIZE_BITS) numBits hnb]

/-- A generation run's successive allocation attempts (main.rs lines
184-223): each attempt calls find_unused_bits with its width and a timeout
of 1000; only the used-bit set is threaded from attempt to attempt (exactly
the state proggen threads), while each attempt's RNG state is arbitrary
(the generator draws from the RNG between allocations as well); generation
stops at the first allocation failure (MAX_ALLOC_FAILURES = 1, main.rs
lines 76 and 216-222).  Each list entry is (width, rng at the attempt). -/
def allocRun : List (Nat × Nat) → Finset Nat → List (Nat × Nat) × Finset Nat
  | [], used => ([], used)
  | wr :: ws, used =>
    match findUnusedBits wr.1 1000 wr.2 used with
    | (some p, _, used2) =>
      let rest := allocRun ws used2
      (p :: rest.1, rest.2)
    | (none, _, used2) => ([], used2)

/-- Invariant of a sequence of allocations: all returned ranges are
in-bounds, byte-aligned, pairwise disjoint, and disjoint from the incoming
used set. -/
theorem allocRun_spec (ws : List (Nat × Nat)) (hw : ∀ wr ∈ ws, 1 ≤ wr.1) :
    ∀ used : Finset Nat,
      (∀ r ∈ (allocRun ws used).1,
        r.1 ≤ r.2 ∧ r.2 < MAX_INPUT_SIZE_BITS ∧ r.1 / 8 = r.2 / 8 ∧
        Disjoint (Finset.Icc r.1 r.2) used) ∧
      (allocRun ws used).1.Pairwise
        (fun a b => Disjoint (Finset.Icc a.1 a.2) (Finset.Icc b.1 b.2)) := by
  induction ws with
  | nil => intro used; simp [allocRun]
  | cons wr ws ih =>
    intro used
    have hw1 : 1 ≤ wr.1 := hw wr (by simp)
    have hws : ∀ x ∈ ws, 1 ≤ x.1 := fun x hx => hw x (by simp [hx])
    rcases hfind : findUnusedBits wr.1 1000 wr.2 used with ⟨res, rng2, used2⟩
    rcases res with _ | ⟨s, e⟩
    · constructor
      · intro r hr
        simp only [allocRun, hfind] at hr
        simp at hr
      · simp only [allocRun, hfind]
        exact List.Pairwise.nil
    · obtain ⟨hee, hlt, hbyte, hdisj, hused2⟩ :=
        findUnusedBits_some wr.1 hw1 1000 wr.2 used s e rng2 used2 hfind
      obtain ⟨ihall, ihpair⟩ := ih hws used2
      have hsub : ∀ r ∈ (allocRun ws used2).1,
          Disjoint (Finset.Icc r.1 r.2) (Finset.Icc s e) := by
        intro r hr
        have hthis := (ihall r hr).2.2.2
        rw [hused2] at hthis
        exact (Finset.disjoint_union_right.mp hthis).2
      constructor
      · intro r hr
        simp only [allocRun, hfind, List.mem_cons] at hr
        rcases hr with rfl | hr
        · exact ⟨by omega, hlt, hbyte, hdisj⟩
        · have h := ihall r hr
          refine ⟨h.1, h.2.1, h.2.2.1, ?_⟩
          have hthis := h.2.2.2
          rw [hused2] at hthis
          exact (Finset.disjoint_union_right.mp hthis).1
      · simp only [allocRun, hfind]
        refine List.Pairwise.cons ?_ ihpair
        intro r hr
        exact (hsub r hr).symm

/-- C4: within one generation run (allocation attempts threading the RNG and
the used-bit set, starting from the empty set), the successfully claimed bit
ranges are pairwise disjoint, and every claimed range lies inside
[0, MAX_INPUT_SIZE_BITS) within a single byte (start/8 = end/8). -/
theorem generation_bit_ranges_disjoint (ws : List (Nat × Nat))
    (hw : ∀ wr ∈ ws, 1 ≤ wr.1 ∧ wr.1 ≤ 8) :
    (allocRun ws ∅).1.Pairwise
      (fun a b => Disjoint (Finset.Icc a.1 a.2) (Finset.Icc b.1 b.2)) ∧
    ∀ r ∈ (allocRun ws ∅).1,
      r.1 ≤ r.2 ∧ r.2 < MAX_INPUT_SIZE_BITS ∧ r.1 / 8 = r.2 / 8 := by
  have h := allocRun_spec ws (fun wr hww => (hw wr hww).1) ∅
  exact ⟨h.2, fun r hr => ⟨(h.1 r hr).1, (h.1 r hr).2.1, (h.1 r hr).2.2.1⟩⟩

/-- Witness for C4 at a concrete run of two allocations. -/
theorem generation_bit_ranges_disjoint_witness :
    (allocRun [(3, 1), (5, 99)] ∅).1.Pairwise
      (fun a b => Disjoint (Finset.Icc a.1 a.2) (Finset.Icc b.1 b.2)) :=
  (generation_bit_ranges_disjoint [(3, 1), (5, 99)] (by decide)).1

/-- C7: a call of the allocator with a width in 1..=8 and the generator's
timeout of 1000 draws either fails, leaving the claimed-bit set exactly as
it was, or succeeds, marking exactly the returned range (which was
previously unclaimed) as used: bits are claimed only on the Some path. -/
theorem find_unused_bits_failure_no_side_effects (w rng s e : Nat)
    (used : Finset Nat) (hw : 1 ≤ w ∧ w ≤ 8) :
    ((findUnusedBits w 1000 rng used).1 = none →
      (findUnusedBits w 1000 rng used).2.2 = used) ∧
    ((findUnusedBits w 1000 rng used).1 = some (s, e) →
      (findUnusedBits w 1000 rng used).2.2 = used ∪ Finset.Icc s e ∧
      Disjoint (Finset.Icc s e) used) := by
  constructor
  · intro hnone
    exact findUnusedBits_none w 1000 rng used _ _
      (by rw [← hnone])
  · intro hsome
    obtain ⟨_, _, _, hdisj, hused⟩ :=
      findUnusedBits_some w hw.1 1000 rng used s e
        (findUnusedBits w 1000 rng used).2.1 (findUnusedBits w 1000 rng used).2.2
        (by rw [← hsome])
    exact ⟨hused, hdisj⟩

/-- Witness for C7: a concrete successful allocation (width 3, seed 5)
claims exactly the returned byte-aligned range 5..7. -/
theorem find_unused_bits_failure_no_side_effects_witness :
    (findUnusedBits 3 1000 5 ∅).2.2 = ∅ ∪ Finset.Icc 5 7 ∧
    Disjoint (Finset.Icc 5 7) (∅ : Finset Nat) :=
  (find_unused_bits_failure_no_side_effects 3 5 5 7 ∅ (by decide)).2 (by decide)

/-! ## The fuzzing engine (harness.rs)

The engine state mirrors struct Fuzzer (harness.rs lines 25-59) together
with the locals of `start` (the shared input buffer and the shared case
counter, lines 103-106).  The per-worker coverage databases and input
databases are the MAX_SIMULATED_CORES element arrays of lines 48-52; the
generated target supplies the constants NUM_COVERAGE and NUM_BYTES and the
evaluator `crashme`, which the engine calls with the input buffer and the
resolved coverage array and which returns whether new coverage was found
(harness.rs line 141). -/

/-- Maximum number of simulated cores (harness.rs line 8). -/
def MAX_SIMULATED_CORES : Nat := 2001

/-- A fuzz input: a byte buffer of NUM_BYTES bytes. -/
abbrev Input := List Nat

/-- What the generated target supplies to the engine: the reported site
count NUM_COVERAGE, the input size NUM_BYTES, and the evaluator crashme as
the engine consumes it (harness.rs line 141): input buffer and coverage
counter array in, updated coverage counters and the new-coverage flag out. -/
structure Target where
  numCoverage : Nat
  numBytes : Nat
  crashme : Input → List Nat → List Nat × Bool

/-- The run configuration fields of struct Fuzzer (harness.rs lines 29-58). -/
structure Config where
  coverage_guided : Bool
  shared_inputs : Bool
  shared_results : Bool
  workers : Nat
  time_constraint : Option ℚ
deriving DecidableEq

/-- The mutable engine state: the RNG, the shared input buffer and case
counter (locals of start), the lifetime fuzz_cases counter, and the
per-worker coverage and input databases. -/
structure FuzzState where
  rng : Nat
  input : Input
  cases : Nat
  fuzzCases : Nat
  coverage : List (List Nat)
  inputs : List (List Input)
deriving DecidableEq

/-- Outcome of Fuzzer::start: Ok(uptime) or Err(found_coverage). -/
inductive RunResult where
  | ok (t : ℚ)
  | err (n : Nat)
deriving DecidableEq

/-- A return from the fuzz loop: the outcome, the engine state at the
moment of return, and the worker index that returned. -/
structure ExitInfo where
  result : RunResult
  state : FuzzState
  worker : Nat
deriving DecidableEq

/-- Number of input databases (harness.rs line 99). -/
def numInputDbs (cfg : Config) : Nat := if cfg.shared_inputs then 1 else cfg.workers

/-- Number of coverage databases (harness.rs line 100). -/
def numOutputDbs (cfg : Config) : Nat := if cfg.shared_results then 1 else cfg.workers

/-- Discovered-coverage count: coverage.iter().filter(|&&x| x > 0).count()
(harness.rs lines 151-152 and 162-163). -/
def countNonzero (l : List Nat) : Nat := l.countP (fun x => decide (0 < x))

/-- The input database the worker resolves to (harness.rs line 125). -/
def resolvedInputDb (cfg : Config) (st : FuzzState) (w : Nat) : List Input :=
  st.inputs.getD (w % numInputDbs cfg) []

/-- The coverage database the worker resolves to (harness.rs line 126). -/
def resolvedCov (cfg : Config) (st : FuzzState) (w : Nat) : List Nat :=
  st.coverage.getD (w % numOutputDbs cfg) []

/-- Input selection (harness.rs lines 128-132): if coverage guided and the
resolved input database is non-empty, overwrite the buffer with a uniformly
drawn database entry (rand() returns the pre-advance state, so the index is
st.rng % len); otherwise keep the buffer as it is.  Returns the RNG state
and the buffer to mutate. -/
def selectInput (tgt : Target) (cfg : Config) (st : FuzzState) (w : Nat) :
    Nat × Input :=
  let db := resolvedInputDb cfg st w
  if cfg.coverage_guided = true ∧ 0 < db.length then
    (rngNext st.rng, db.getD (st.rng % db.length) (List.replicate tgt.numBytes 0))
  else (st.rng, st.input)

/-- The mutation loop body (harness.rs line 137):
input[rng.rand() % input.len()] = rng.rand() as u8, repeated n times.  Rust
evaluates the assigned value before the place, so the byte value is drawn
first, then the index. -/
def mutateLoop : Nat → Nat → Input → Nat × Input
  | 0, rng, input => (rng, input)
  | n + 1, rng, input =>
    let v := rng % 256
    let rng1 := rngNext rng
    let idx := rng1 % input.length
    let rng2 := rngNext rng1
    mutateLoop n rng2 (input.set idx v)

/-- The whole mutation pass (harness.rs line 136): replace rand() % 8 + 1
bytes at random locations with random values. -/
def mutateInput (rng : Nat) (input : Input) : Nat × Input :=
  mutateLoop (rng % 8 + 1) (rngNext rng) input

/-- The timeout test (harness.rs lines 148-149):
time_constraint.is_some() && Some(uptime) >= time_constraint. -/
def timedOut (cfg : Config) (uptime : ℚ) : Bool :=
  match cfg.time_constraint with
  | some c => decide (c ≤ uptime)
  | none => false

/-- The buffer actually evaluated on this worker iteration: the selected
input after the mutation pass. -/
def mutatedOf (tgt : Target) (cfg : Config) (st : FuzzState) (w : Nat) : Input :=
  (mutateInput (selectInput tgt cfg st w).1 (selectInput tgt cfg st w).2).2

/-- The RNG state after selection and mutation. -/
def mutRngOf (tgt : Target) (cfg : Config) (st : FuzzState) (w : Nat) : Nat :=
  (mutateInput (selectInput tgt cfg st w).1 (selectInput tgt cfg st w).2).1

/-- The evaluator call of this worker iteration (harness.rs line 141): crashme
applied to the mutated input buffer and the resolved coverage array, giving
the updated counters and whether new coverage was found. -/
def evalOf (tgt : Target) (cfg : Config) (st : FuzzState) (w : Nat) :
    List Nat × Bool :=
  tgt.crashme (mutatedOf tgt cfg st w) (resolvedCov cfg st w)

/-- The uptime of this iteration (harness.rs line 146): fuzz cases divided
by worker count, after the case counter was incremented. -/
def uptimeOf (cfg : Config) (st : FuzzState) : ℚ :=
  ((st.cases + 1 : ℕ) : ℚ) / ((cfg.workers : ℕ) : ℚ)

/-- The engine state after an iteration that does not push to the corpus:
counters bumped, buffer mutated, resolved coverage array updated in place by
the evaluator. -/
def baseState (tgt : Target) (cfg : Config) (st : FuzzState) (w : Nat) :
    FuzzState :=
  { rng := mutRngOf tgt cfg st w
    input := mutatedOf tgt cfg st w
    cases := st.cases + 1
    fuzzCases := st.fuzzCases + 1
    coverage := st.coverage.set (w % numOutputDbs cfg) (evalOf tgt cfg st w).1
    inputs := st.inputs }

/-- The engine state after an iteration that also pushed the input to the
resolved input database (harness.rs line 159). -/
def pushedState (tgt : Target) (cfg : Config) (st : FuzzState) (w : Nat) :
    FuzzState :=
  { baseState tgt cfg st w with
    inputs := st.inputs.set (w % numInputDbs cfg)
      (resolvedInputDb cfg st w ++ [mutatedOf tgt cfg st w]) }

/-- One worker iteration of the fuzz loop (harness.rs lines 120-170):
bump the case counter, resolve the worker's databases, select and mutate the
input, invoke crashme on the input and the resolved coverage array, then in
order: timeout check returning Err(found_coverage), and on new coverage a
corpus push followed by the full-coverage check returning Ok(uptime). -/
def workerStep (tgt : Target) (cfg : Config) (st : FuzzState) (w : Nat) :
    FuzzState ⊕ ExitInfo :=
  if timedOut cfg (uptimeOf cfg st) then
    .inr ⟨.err (countNonzero (evalOf tgt cfg st w).1), baseState tgt cfg st w, w⟩
  else if (evalOf tgt cfg st w).2 then
    if countNonzero (evalOf tgt cfg st w).1 = (evalOf tgt cfg st w).1.length then
      .inr ⟨.ok (uptimeOf cfg st), pushedState tgt cfg st w, w⟩
    else .inl (pushedState tgt cfg st w)
  else .inl (baseState tgt cfg st w)

/-- One round of the fuzz loop: workers visited in index order, with an
early return ending the whole run (harness.rs line 120). -/
def roundAux (tgt : Target) (cfg : Config) :
    List Nat → FuzzState → FuzzState ⊕ ExitInfo
  | [], st => .inl st
  | w :: ws, st =>
    match workerStep tgt cfg st w with
    | .inl st2 => roundAux tgt cfg ws st2
    | .inr e => .inr e

/-- The unbounded outer loop (harness.rs line 119), run for a bounded
number of rounds; none means the run had not yet returned. -/
def runRounds (tgt : Target) (cfg : Config) :
    Nat → FuzzState → Option ExitInfo
  | 0, _ => none
  | fuel + 1, st =>
    match roundAux tgt cfg (List.range cfg.workers) st with
    | .inl st2 => runRounds tgt cfg fuel st2
    | .inr e => some e

/-- Fuzzer::new (harness.rs lines 62-92): all MAX_SIMULATED_CORES coverage
databases are allocated with NUM_COVERAGE zeroed slots and all input
databases empty. -/
def fuzzerNew (tgt : Target) (seed : Nat) : FuzzState :=
  { rng := seed
    input := List.replicate tgt.numBytes 0
    cases := 0
    fuzzCases := 0
    coverage := List.replicate MAX_SIMULATED_CORES (List.replicate tgt.numCoverage 0)
    inputs := List.replicate MAX_SIMULATED_CORES [] }

/-- The clear loop for the first k coverage databases (harness.rs lines
113-116): every slot of each cleared database is set to 0. -/
def clearCoverage : Nat → List (List Nat) → List (List Nat)
  | 0, dbs => dbs
  | _ + 1, [] => []
  | k + 1, c :: dbs => c.map (fun _ => 0) :: clearCoverage k dbs

/-- The clear loop for the first k input databases (harness.rs lines
108-111). -/
def clearInputDbs : Nat → List (List Input) → List (List Input)
  | 0, dbs => dbs
  | _ + 1, [] => []
  | k + 1, _ :: dbs => [] :: clearInputDbs k dbs

/-- The setup of Fuzzer::start (harness.rs lines 94-116): zero the input
buffer and case counter, clear the first numInputDbs input databases and
zero every slot of the first numOutputDbs coverage databases. -/
def startState (tgt : Target) (cfg : Config) (prior : FuzzState) : FuzzState :=
  { rng := prior.rng
    input := List.replicate tgt.numBytes 0
    cases := 0
    fuzzCases := prior.fuzzCases
    coverage := clearCoverage (numOutputDbs cfg) prior.coverage
    inputs := clearInputDbs (numInputDbs cfg) prior.inputs }

/-- Fuzzer::start, fuel-bounded. -/
def start (tgt : Target) (cfg : Config) (prior : FuzzState) (fuel : Nat) :
    Option ExitInfo :=
  runRounds tgt cfg fuel (startState tgt cfg prior)

/-! ## Engine step characterization -/

/-- A continuing worker iteration had no timeout and is the base state or,
exactly when the evaluator reported new coverage, the pushed state. -/
theorem workerStep_inl (tgt : Target) (cfg : Config) (st : FuzzState)
    (w : Nat) (st2 : FuzzState) (h : workerStep tgt cfg st w = .inl st2) :
    timedOut cfg (uptimeOf cfg st) = false ∧
    st2 = (if (evalOf tgt cfg st w).2 then pushedState tgt cfg st w
           else baseState tgt cfg st w) := by
  unfold workerStep at h
  split at h
  · exact absurd h (by simp)
  next hto =>
    split at h
    next hev =>
      split at h
      · exact absurd h (by simp)
      · simp only [Sum.inl.injEq] at h
        simp [Bool.not_eq_true] at hto
        simp [hto, hev, ← h]
    next hev =>
      simp only [Sum.inl.injEq] at h
      simp [Bool.not_eq_true] at hto
      simp [hto, Bool.of_not_eq_true hev, ← h]

/-- A returning worker iteration is either the timeout return (Err carrying
the discovered-coverage count of the just-updated resolved array) or the
full-coverage return (Ok carrying the uptime, after the corpus push). -/
theorem workerStep_inr (tgt : Target) (cfg : Config) (st : FuzzState)
    (w : Nat) (e : ExitInfo) (h : workerStep tgt cfg st w = .inr e) :
    (timedOut cfg (uptimeOf cfg st) = true ∧
      e = ⟨.err (countNonzero (evalOf tgt cfg st w).1),
        baseState tgt cfg st w, w⟩) ∨
    (timedOut cfg (uptimeOf cfg st) = false ∧
      (evalOf tgt cfg st w).2 = true ∧
      countNonzero (evalOf tgt cfg st w).1 = (evalOf tgt cfg st w).1.length ∧
      e = ⟨.ok (uptimeOf cfg st), pushedState tgt cfg st w, w⟩) := by
  unfold workerStep at h
  split at h
  next hto =>
    simp only [Sum.inr.injEq] at h
    exact Or.inl ⟨hto, h.symm⟩
  next hto =>
    split at h
    next hev =>
      split at h
      next hfull =>
        simp only [Sum.inr.injEq] at h
        exact Or.inr ⟨by simpa using hto, hev, hfull, h.symm⟩
      · exact absurd h (by simp)
    · exact absurd h (by simp)

/-! ## Run-level lifting and shared helper lemmas -/

/-- Both step outcomes carry the incremented case counter. -/
theorem workerStep_cases (tgt : Target) (cfg : Config) (st : FuzzState) (w : Nat) :
    (∀ st2, workerStep tgt cfg st w = .inl st2 → st2.cases = st.cases + 1) ∧
    (∀ e, workerStep tgt cfg st w = .inr e →
      e.state.cases = st.cases + 1 ∧ e.worker = w) := by
  constructor
  · intro st2 h
    obtain ⟨-, hst⟩ := workerStep_inl tgt cfg st w st2 h
    split at hst <;> simp [hst, pushedState, baseState]
  · intro e h
    rcases workerStep_inr tgt cfg st w e h with ⟨-, he⟩ | ⟨-, -, -, he⟩ <;>
      simp [he, pushedState, baseState]

/-- An exit of the round loop comes from a single worker step out of a state
reached by continuing steps; any invariant preserved by continuing steps
holds at the pre-exit state. -/
theorem roundAux_exit (tgt : Target) (cfg : Config) (P : FuzzState → Prop)
    (hstep : ∀ st st2 w, w < cfg.workers → P st →
      workerStep tgt cfg st w = .inl st2 → P st2) :
    ∀ (ws : List Nat) (st : FuzzState) (e : ExitInfo),
      (∀ w ∈ ws, w < cfg.workers) → P st →
      roundAux tgt cfg ws st = .inr e →
      ∃ st2 w, w < cfg.workers ∧ P st2 ∧ workerStep tgt cfg st2 w = .inr e := by
  intro ws
  induction ws with
  | nil =>
    intro st e _ _ h
    exact absurd h (by simp [roundAux])
  | cons w ws ih =>
    intro st e hws hP h
    simp only [roundAux] at h
    rcases hstep2 : workerStep tgt cfg st w with st2 | e2
    · rw [hstep2] at h
      exact ih _ e (fun x hx => hws x (by simp [hx]))
        (hstep st st2 w (hws w (by simp)) hP hstep2) h
    · rw [hstep2] at h
      simp only [Sum.inr.injEq] at h
      exact ⟨st, w, hws w (by simp), hP, by rw [hstep2, h]⟩

/-- A continuing round preserves any invariant preserved by continuing
steps. -/
theorem roundAux_inl (tgt : Target) (cfg : Config) (P : FuzzState → Prop)
    (hstep : ∀ st st2 w, w < cfg.workers → P st →
      workerStep tgt cfg st w = .inl st2 → P st2) :
    ∀ (ws : List Nat) (st st2 : FuzzState),
      (∀ w ∈ ws, w < cfg.workers) → P st →
      roundAux tgt cfg ws st = .inl st2 → P st2 := by
  intro ws
  induction ws with
  | nil =>
    intro st st2 _ hP h
    simp only [roundAux, Sum.inl.injEq] at h
    exact h ▸ hP
  | cons w ws ih =>
    intro st st2 hws hP h
    simp only [roundAux] at h
    rcases hstep2 : workerStep tgt cfg st w with st3 | e2
    · rw [hstep2] at h
      exact ih st3 st2 (fun x hx => hws x (by simp [hx]))
        (hstep st st3 w (hws w (by simp)) hP hstep2) h
    · rw [hstep2] at h
      exact absurd h (by simp)

/-- An exit of the whole run comes from a single worker step (with worker
index below the worker count) out of a state satisfying any invariant that
holds initially and is preserved by continuing steps. -/
theorem runRounds_exit (tgt : Target) (cfg : Config) (P : FuzzState → Prop)
    (hstep : ∀ st st2 w, w < cfg.workers → P st →
      workerStep tgt cfg st w = .inl st2 → P st2) :
    ∀ (fuel : Nat) (st : FuzzState) (e : ExitInfo),
      P st → runRounds tgt cfg fuel st = some e →
      ∃ st2 w, w < cfg.workers ∧ P st2 ∧ workerStep tgt cfg st2 w = .inr e := by
  intro fuel
  induction fuel with
  | zero =>
    intro st e _ h
    exact absurd h (by simp [runRounds])
  | succ n ih =>
    intro st e hP h
    simp only [runRounds] at h
    rcases hround : roundAux tgt cfg (List.range cfg.workers) st with st2 | e2
    · rw [hround] at h
      exact ih st2 e
        (roundAux_inl tgt cfg P hstep _ st st2
          (fun x hx => List.mem_range.mp hx) hP hround) h
    · rw [hround] at h
      simp only [Option.some.injEq] at h
      exact h ▸ roundAux_exit tgt cfg P hstep _ st e2
        (fun x hx => List.mem_range.mp hx) hP hround

/-- getD after set, with default 0. -/
theorem getD_set_eq (l : List Nat) (i j v : Nat) :
    (l.set i v).getD j 0 =
      if i = j ∧ i < l.length then v else l.getD j 0 := by
  simp only [List.getD_eq_getElem?_getD, List.getElem?_set]
  by_cases hij : i = j
  · subst hij
    by_cases hlen : i < l.length
    · simp [hlen]
    · simp [hlen, List.getElem?_eq_none (by omega : l.length ≤ i)]
  · simp [hij]

/-- getD after set, for lists of lists. -/
theorem getD_set_eq_list (l : List (List Nat)) (i j : Nat) (v : List Nat) :
    (l.set i v).getD j [] =
      if i = j ∧ i < l.length then v else l.getD j [] := by
  simp only [List.getD_eq_getElem?_getD, List.getElem?_set]
  by_cases hij : i = j
  · subst hij
    by_cases hlen : i < l.length
    · simp [hlen]
    · simp [hlen, List.getElem?_eq_none (by omega : l.length ≤ i)]
  · simp [hij]

/-- getD after set, for input databases. -/
theorem getD_set_eq_db (l : List (List Input)) (i j : Nat) (v : List Input) :
    (l.set i v).getD j [] =
      if i = j ∧ i < l.length then v else l.getD j [] := by
  simp only [List.getD_eq_getElem?_getD, List.getElem?_set]
  by_cases hij : i = j
  · subst hij
    by_cases hlen : i < l.length
    · simp [hlen]
    · simp [hlen, List.getElem?_eq_none (by omega : l.length ≤ i)]
  · simp [hij]

/-- The coverage clear loop keeps the database count. -/
theorem clearCoverage_length (k : Nat) (dbs : List (List Nat)) :
    (clearCoverage k dbs).length = dbs.length := by
  induction dbs generalizing k with
  | nil => cases k <;> simp [clearCoverage]
  | cons c dbs ih =>
    cases k with
    | zero => simp [clearCoverage]
    | succ k => simp [clearCoverage, ih]

/-- The cleared coverage databases: cleared in the first k slots, untouched
beyond. -/
theorem clearCoverage_getD (k : Nat) (dbs : List (List Nat)) (i : Nat) :
    (clearCoverage k dbs).getD i [] =
      if i < k then (dbs.getD i []).map (fun _ => 0) else dbs.getD i [] := by
  induction dbs generalizing k i with
  | nil => cases k <;> simp [clearCoverage]
  | cons c dbs ih =>
    cases k with
    | zero => simp [clearCoverage]
    | succ k =>
      cases i with
      | zero => simp [clearCoverage]
      | succ i => simpa [clearCoverage] using ih k i

/-- The input database clear loop keeps the database count. -/
theorem clearInputDbs_length (k : Nat) (dbs : List (List Input)) :
    (clearInputDbs k dbs).length = dbs.length := by
  induction dbs generalizing k with
  | nil => cases k <;> simp [clearInputDbs]
  | cons c dbs ih =>
    cases k with
    | zero => simp [clearInputDbs]
    | succ k => simp [clearInputDbs, ih]

/-- The cleared input databases: emptied in the first k slots, untouched
beyond. -/
theorem clearInputDbs_getD (k : Nat) (dbs : List (List Input)) (i : Nat) :
    (clearInputDbs k dbs).getD i [] =
      if i < k then [] else dbs.getD i [] := by
  induction dbs generalizing k i with
  | nil => cases k <;> simp [clearInputDbs]
  | cons c dbs ih =>
    cases k with
    | zero => simp [clearInputDbs]
    | succ k =>
      cases i with
      | zero => simp [clearInputDbs]
      | succ i => simpa [clearInputDbs] using ih k i

/-- The engine state carries MAX_SIMULATED_CORES coverage databases of
exactly the generator-reported NUM_COVERAGE slots each. -/
def covSized (tgt : Target) (st : FuzzState) : Prop :=
  st.coverage.length = MAX_SIMULATED_CORES ∧
  ∀ c ∈ st.coverage, c.length = tgt.numCoverage

/-- Dividing Nat casts by a Nat cast is monotone (the degenerate zero
denominator gives 0 = 0). -/
theorem div_natCast_mono (w : Nat) {a b : Nat} (hab : a ≤ b) :
    ((a : ℕ) : ℚ) / ((w : ℕ) : ℚ) ≤ ((b : ℕ) : ℚ) / ((w : ℕ) : ℚ) := by
  rcases Nat.eq_zero_or_pos w with h0 | hpos
  · simp [h0]
  · have hw : (0 : ℚ) < (w : ℚ) := by exact_mod_cast hpos
    exact (div_le_div_iff_of_pos_right hw).mpr (by exact_mod_cast hab)

/-- Fuzzer::new produces correctly sized coverage databases. -/
theorem covSized_fuzzerNew (tgt : Target) (seed : Nat) :
    covSized tgt (fuzzerNew tgt seed) := by
  constructor
  · simp [fuzzerNew]
  · intro c hc
    simp only [fuzzerNew] at hc
    rw [List.eq_of_mem_replicate hc]
    simp

/-- Elements of the cleared coverage databases come from the prior ones,
possibly zeroed slotwise. -/
theorem clearCoverage_mem (k : Nat) (dbs : List (List Nat)) (c : List Nat)
    (hc : c ∈ clearCoverage k dbs) :
    c ∈ dbs ∨ ∃ c0 ∈ dbs, c = c0.map (fun _ => 0) := by
  induction dbs generalizing k with
  | nil => cases k <;> simp [clearCoverage] at hc
  | cons d dbs ih =>
    cases k with
    | zero => exact Or.inl hc
    | succ k =>
      simp only [clearCoverage, List.mem_cons] at hc
      rcases hc with rfl | hc
      · exact Or.inr ⟨d, by simp⟩
      · rcases ih k hc with h | ⟨c0, hc0, rfl⟩
        · exact Or.inl (by simp [h])
        · exact Or.inr ⟨c0, by simp [hc0]⟩

/-- The start-of-run clears keep the coverage databases correctly sized. -/
theorem covSized_startState (tgt : Target) (cfg : Config) (prior : FuzzState)
    (hprior : covSized tgt prior) :
    covSized tgt (startState tgt cfg prior) := by
  constructor
  · simp [startState, clearCoverage_length, hprior.1]
  · intro c hc
    simp only [startState] at hc
    rcases clearCoverage_mem _ _ _ hc with h | ⟨c0, hc0, rfl⟩
    · exact hprior.2 c h
    · simp [hprior.2 c0 hc0]

/-- Setting one database to a list of the database's own length keeps all
databases correctly sized. -/
theorem covSized_coverage_set (tgt : Target) (l : List (List Nat)) (i : Nat)
    (v : List Nat) (hl : ∀ c ∈ l, c.length = tgt.numCoverage)
    (hv : v.length = (l.getD i []).length) :
    ∀ c ∈ l.set i v, c.length = tgt.numCoverage := by
  by_cases hi : i < l.length
  · intro c hc
    rcases List.mem_or_eq_of_mem_set hc with h | rfl
    · exact hl c h
    · rw [hv, List.getD_eq_getElem l [] hi]
      exact hl _ (List.getElem_mem hi)
  · rw [List.set_eq_of_length_le (by omega)]
    exact hl

/-- The resolved coverage array has NUM_COVERAGE slots, and its index is in
range, whenever the worker count is positive and within the simulated-core
bound. -/
theorem resolvedCov_length (tgt : Target) (cfg : Config) (st : FuzzState)
    (w : Nat) (hP : covSized tgt st) (hw0 : 0 < cfg.workers)
    (hwm : cfg.workers ≤ MAX_SIMULATED_CORES) :
    w % numOutputDbs cfg < st.coverage.length ∧
    (resolvedCov cfg st w).length = tgt.numCoverage := by
  have h1 : 0 < numOutputDbs cfg := by
    unfold numOutputDbs; split <;> omega
  have h2 : numOutputDbs cfg ≤ MAX_SIMULATED_CORES := by
    have hM : 0 < MAX_SIMULATED_CORES := by norm_num [MAX_SIMULATED_CORES]
    unfold numOutputDbs; split <;> omega
  have hidx : w % numOutputDbs cfg < st.coverage.length := by
    rw [hP.1]
    exact lt_of_lt_of_le (Nat.mod_lt _ h1) h2
  refine ⟨hidx, ?_⟩
  rw [resolvedCov, List.getD_eq_getElem st.coverage [] hidx]
  exact hP.2 _ (List.getElem_mem hidx)

/-- Both outcomes of a worker step write the evaluator's updated counters
into the resolved coverage database and leave the others alone. -/
theorem workerStep_coverage (tgt : Target) (cfg : Config) (st : FuzzState)
    (w : Nat) :
    (∀ st2, workerStep tgt cfg st w = .inl st2 →
      st2.coverage = st.coverage.set (w % numOutputDbs cfg)
        (evalOf tgt cfg st w).1) ∧
    (∀ e, workerStep tgt cfg st w = .inr e →
      e.state.coverage = st.coverage.set (w % numOutputDbs cfg)
        (evalOf tgt cfg st w).1) := by
  constructor
  · intro st2 h
    obtain ⟨-, hst⟩ := workerStep_inl tgt cfg st w st2 h
    split at hst <;> simp [hst, pushedState, baseState]
  · intro e h
    rcases workerStep_inr tgt cfg st w e h with ⟨-, he⟩ | ⟨-, -, -, he⟩ <;>
      simp [he, pushedState, baseState]

/-- Worker steps preserve the coverage sizing invariant, provided the
evaluator mutates its counter array in place (keeps its length). -/
theorem covSized_workerStep (tgt : Target) (cfg : Config)
    (hlen : ∀ inp c, ((tgt.crashme inp c).1).length = c.length) :
    (∀ st st2 w, workerStep tgt cfg st w = .inl st2 →
      covSized tgt st → covSized tgt st2) ∧
    (∀ st e w, workerStep tgt cfg st w = .inr e →
      covSized tgt st → covSized tgt e.state) := by
  have key : ∀ (st : FuzzState) (w : Nat), covSized tgt st →
      ∀ c ∈ st.coverage.set (w % numOutputDbs cfg) (evalOf tgt cfg st w).1,
        c.length = tgt.numCoverage := by
    intro st w hP
    exact covSized_coverage_set tgt st.coverage _ _ hP.2 (hlen _ _)
  constructor
  · intro st st2 w h hP
    have hcov := (workerStep_coverage tgt cfg st w).1 st2 h
    exact ⟨by rw [hcov, List.length_set]; exact hP.1, hcov ▸ key st w hP⟩
  · intro st e w h hP
    have hcov := (workerStep_coverage tgt cfg st w).2 e h
    exact ⟨by rw [hcov, List.length_set]; exact hP.1, hcov ▸ key st w hP⟩

/-- C2: whenever start returns Ok(t), at the moment of return the number of
nonzero slots of the worker's resolved coverage database equals that
database's slot count (which is the generator-reported NUM_COVERAGE), and t
is the shared case counter divided by the worker count at that instant. -/
theorem start_ok_full_coverage (tgt : Target) (cfg : Config)
    (prior : FuzzState) (fuel : Nat) (e : ExitInfo) (t : ℚ)
    (hlen : ∀ inp c, ((tgt.crashme inp c).1).length = c.length)
    (hprior : covSized tgt prior)
    (hw0 : 0 < cfg.workers) (hwm : cfg.workers ≤ MAX_SIMULATED_CORES)
    (h : start tgt cfg prior fuel = some e) (hr : e.result = RunResult.ok t) :
    countNonzero (e.state.coverage.getD (e.worker % numOutputDbs cfg) []) =
      (e.state.coverage.getD (e.worker % numOutputDbs cfg) []).length ∧
    (e.state.coverage.getD (e.worker % numOutputDbs cfg) []).length =
      tgt.numCoverage ∧
    t = ((e.state.cases : ℕ) : ℚ) / ((cfg.workers : ℕ) : ℚ) := by
  obtain ⟨st2, w, hwlt, hP, hstep⟩ :=
    runRounds_exit tgt cfg (covSized tgt)
      (fun st st2 w _ hPs hs => (covSized_workerStep tgt cfg hlen).1 st st2 w hs hPs)
      fuel (startState tgt cfg prior) e
      (covSized_startState tgt cfg prior hprior) h
  rcases workerStep_inr tgt cfg st2 w e hstep with ⟨hto, he⟩ | ⟨hto, hev, hfull, he⟩
  · rw [he] at hr
    exact absurd hr (by simp)
  · obtain ⟨hidx, hrlen⟩ := resolvedCov_length tgt cfg st2 w hP hw0 hwm
    have hshard :
        (pushedState tgt cfg st2 w).coverage.getD (w % numOutputDbs cfg) [] =
          (evalOf tgt cfg st2 w).1 := by
      simp [pushedState, baseState, getD_set_eq_list, hidx]
    have hevlen : (evalOf tgt cfg st2 w).1.length = tgt.numCoverage := by
      rw [evalOf, hlen, hrlen]
    rw [he] at hr ⊢
    simp only [RunResult.ok.injEq] at hr
    simp only [hshard]
    refine ⟨hfull, hevlen, ?_⟩
    rw [← hr]
    simp [pushedState, baseState, uptimeOf]

/-- A placeholder exit used only as a getD default for concrete runs. -/
def dummyExit : ExitInfo := ⟨.err 0, ⟨0, [], 0, 0, [], []⟩, 0⟩

/-- Concrete target for the C2 witness: one coverage site, evaluator marks
it and reports new coverage. -/
def tgtC2 : Target := ⟨1, 1, fun _ c => (c.map (fun _ => 1), true)⟩

/-- Concrete configuration for the C2 witness. -/
def cfgC2 : Config := ⟨true, true, true, 1, none⟩

/-- The exit of the concrete C2 run: full coverage on the first case. -/
def exitC2 : ExitInfo := (start tgtC2 cfgC2 (fuzzerNew tgtC2 0) 1).getD dummyExit

/-- Witness for C2: the concrete one-worker run returns Ok on the first
case, with the resolved database fully discovered and the reported time
equal to cases divided by workers. -/
theorem start_ok_full_coverage_witness :
    countNonzero (exitC2.state.coverage.getD (exitC2.worker % numOutputDbs cfgC2) []) =
      (exitC2.state.coverage.getD (exitC2.worker % numOutputDbs cfgC2) []).length ∧
    (exitC2.state.coverage.getD (exitC2.worker % numOutputDbs cfgC2) []).length =
      tgtC2.numCoverage ∧
    ((1 : ℕ) : ℚ) / ((1 : ℕ) : ℚ) =
      ((exitC2.state.cases : ℕ) : ℚ) / ((cfgC2.workers : ℕ) : ℚ) :=
  start_ok_full_coverage tgtC2 cfgC2 (fuzzerNew tgtC2 0) 1 exitC2
    (((1 : ℕ) : ℚ) / ((1 : ℕ) : ℚ))
    (fun inp c => by simp [tgtC2]) (covSized_fuzzerNew tgtC2 0)
    (by decide) (by decide) rfl rfl

/-! ## Timeout handling (C3) -/

/-- No worker iteration before the given case number had reached the time
constraint: uptime m/workers stayed below c for every earlier case m. -/
def noEarlierTimeout (cfg : Config) (c : ℚ) (cases : Nat) : Bool :=
  (List.range cases).all
    (fun m => m == 0 || decide (((m : ℕ) : ℚ) / ((cfg.workers : ℕ) : ℚ) < c))

/-- Propositional reading of noEarlierTimeout. -/
theorem noEarlierTimeout_iff (cfg : Config) (c : ℚ) (cases : Nat) :
    noEarlierTimeout cfg c cases = true ↔
      ∀ m, 1 ≤ m → m < cases →
        ((m : ℕ) : ℚ) / ((cfg.workers : ℕ) : ℚ) < c := by
  rw [noEarlierTimeout, List.all_eq_true]
  constructor
  · intro h m h1 h2
    have hm := h m (List.mem_range.mpr h2)
    simp only [Bool.or_eq_true, beq_iff_eq, decide_eq_true_eq] at hm
    rcases hm with hm | hm
    · omega
    · exact hm
  · intro h m hm
    simp only [Bool.or_eq_true, beq_iff_eq, decide_eq_true_eq]
    rcases Nat.eq_zero_or_pos m with rfl | hpos
    · exact Or.inl rfl
    · exact Or.inr (h m hpos (List.mem_range.mp hm))

/-- The timeout test under a set constraint is the uptime comparison. -/
theorem timedOut_some_iff (cfg : Config) (c u : ℚ)
    (htc : cfg.time_constraint = some c) :
    timedOut cfg u = true ↔ c ≤ u := by
  simp [timedOut, htc]

/-- Continuing worker steps keep the invariant that no case so far reached
the time constraint (and keep the database count). -/
theorem timeoutInv_workerStep (tgt : Target) (cfg : Config) (c : ℚ)
    (htc : cfg.time_constraint = some c) :
    ∀ st st2 w, workerStep tgt cfg st w = .inl st2 →
      (st.coverage.length = MAX_SIMULATED_CORES ∧
        noEarlierTimeout cfg c (st.cases + 1) = true) →
      (st2.coverage.length = MAX_SIMULATED_CORES ∧
        noEarlierTimeout cfg c (st2.cases + 1) = true) := by
  intro st st2 w h hI
  obtain ⟨hL, hN⟩ := hI
  have hto := (workerStep_inl tgt cfg st w st2 h).1
  have hcov := (workerStep_coverage tgt cfg st w).1 st2 h
  have hcase := (workerStep_cases tgt cfg st w).1 st2 h
  refine ⟨by rw [hcov, List.length_set]; exact hL, ?_⟩
  rw [hcase]
  rw [noEarlierTimeout_iff] at hN ⊢
  intro m h1 h2
  rcases Nat.lt_or_ge m (st.cases + 1) with hm | hm
  · exact hN m h1 hm
  · have hmeq : m = st.cases + 1 := by omega
    subst hmeq
    have hnotle : ¬ (c ≤ uptimeOf cfg st) := by
      intro hc
      have := (timedOut_some_iff cfg c (uptimeOf cfg st) htc).mpr hc
      rw [hto] at this
      exact absurd this (by simp)
    have hlt := not_le.mp hnotle
    simpa [uptimeOf] using hlt

/-- C3: under a configured time constraint, a run returns Err exactly on the
first worker iteration whose uptime (cases divided by workers) reached the
constraint, carrying the count of nonzero slots of that worker's resolved
coverage database; the timeout return takes precedence over the
new-coverage/full-coverage path, so an Ok return can only happen with uptime
still below the constraint. -/
theorem start_timeout_precedence (tgt : Target) (cfg : Config)
    (prior : FuzzState) (fuel : Nat) (e : ExitInfo) (c : ℚ) (n : Nat) (t : ℚ)
    (htc : cfg.time_constraint = some c)
    (hpl : prior.coverage.length = MAX_SIMULATED_CORES)
    (hw0 : 0 < cfg.workers) (hwm : cfg.workers ≤ MAX_SIMULATED_CORES)
    (h : start tgt cfg prior fuel = some e) :
    (e.result = RunResult.err n →
      n = countNonzero (e.state.coverage.getD (e.worker % numOutputDbs cfg) []) ∧
      c ≤ ((e.state.cases : ℕ) : ℚ) / ((cfg.workers : ℕ) : ℚ) ∧
      noEarlierTimeout cfg c e.state.cases = true) ∧
    (e.result = RunResult.ok t →
      ((e.state.cases : ℕ) : ℚ) / ((cfg.workers : ℕ) : ℚ) < c) := by
  obtain ⟨st2, w, hwlt, hP, hstep⟩ :=
    runRounds_exit tgt cfg
      (fun st => st.coverage.length = MAX_SIMULATED_CORES ∧
        noEarlierTimeout cfg c (st.cases + 1) = true)
      (fun st st2 w _ hPs hs => timeoutInv_workerStep tgt cfg c htc st st2 w hs hPs)
      fuel (startState tgt cfg prior) e
      ⟨by simp [startState, clearCoverage_length, hpl],
        (noEarlierTimeout_iff cfg c 1).mpr (by omega)⟩ h
  have hM : 0 < MAX_SIMULATED_CORES := by norm_num [MAX_SIMULATED_CORES]
  have hn0 : 0 < numOutputDbs cfg := by unfold numOutputDbs; split <;> omega
  have hnM : numOutputDbs cfg ≤ MAX_SIMULATED_CORES := by
    unfold numOutputDbs; split <;> omega
  have hidx : w % numOutputDbs cfg < st2.coverage.length := by
    rw [hP.1]
    exact lt_of_lt_of_le (Nat.mod_lt _ hn0) hnM
  rcases workerStep_inr tgt cfg st2 w e hstep with ⟨hto, he⟩ | ⟨hto, hev, hfull, he⟩
  · constructor
    · intro hr
      rw [he] at hr ⊢
      simp only [RunResult.err.injEq] at hr
      have hshard :
          (baseState tgt cfg st2 w).coverage.getD (w % numOutputDbs cfg) [] =
            (evalOf tgt cfg st2 w).1 := by
        simp [baseState, getD_set_eq_list, hidx]
      refine ⟨by rw [hshard, ← hr], ?_, ?_⟩
      · have hle := (timedOut_some_iff cfg c (uptimeOf cfg st2) htc).mp hto
        simpa [baseState, uptimeOf] using hle
      · simpa [baseState] using hP.2
    · intro hr
      rw [he] at hr
      exact absurd hr (by simp)
  · constructor
    · intro hr
      rw [he] at hr
      exact absurd hr (by simp)
    · intro hr
      have hnotle2 : ¬ (c ≤ uptimeOf cfg st2) := by
        intro hc
        have := (timedOut_some_iff cfg c (uptimeOf cfg st2) htc).mpr hc
        rw [hto] at this
        exact absurd this (by simp)
      rw [he]
      simpa [pushedState, baseState, uptimeOf] using not_le.mp hnotle2

/-- Concrete target for the timeout runs: one coverage site, evaluator
always reports new coverage but leaves the counters unchanged. -/
def tgtC3 : Target := ⟨1, 1, fun _ c => (c, true)⟩

/-- Concrete configuration with a time constraint of 1. -/
def cfgC3 : Config := ⟨false, true, true, 1, some 1⟩

/-- The state at the start of the concrete timeout run. -/
def stC3 : FuzzState := startState tgtC3 cfgC3 (fuzzerNew tgtC3 0)

/-- The exit of the concrete timeout run: Err on the first case. -/
def exitC3 : ExitInfo :=
  ⟨.err (countNonzero (evalOf tgtC3 cfgC3 stC3 0).1),
    baseState tgtC3 cfgC3 stC3 0, 0⟩

/-- The concrete timeout run returns Err on its first worker iteration. -/
theorem runC3 : start tgtC3 cfgC3 (fuzzerNew tgtC3 0) 1 = some exitC3 := by
  have hto : timedOut cfgC3 (uptimeOf cfgC3 stC3) = true := by
    have hc : (1 : ℚ) ≤ uptimeOf cfgC3 stC3 := by
      show (1 : ℚ) ≤ ((0 + 1 : ℕ) : ℚ) / ((1 : ℕ) : ℚ)
      norm_num
    simp only [timedOut, cfgC3, decide_eq_true_eq]
    exact hc
  show runRounds tgtC3 cfgC3 1 stC3 = some exitC3
  have hr1 : List.range 1 = [0] := by simp [List.range_succ]
  simp only [runRounds, roundAux, hr1, workerStep, hto, if_true]
  rfl

/-- Witness for C3: the concrete run under time constraint 1 exits with the
Err outcome on case 1, uptime at the constraint, no earlier case at the
constraint, and the Err payload equal to the discovered count of the
resolved database. -/
theorem start_timeout_precedence_witness :
    countNonzero (evalOf tgtC3 cfgC3 stC3 0).1 =
      countNonzero
        (exitC3.state.coverage.getD (exitC3.worker % numOutputDbs cfgC3) []) ∧
    (1 : ℚ) ≤ ((exitC3.state.cases : ℕ) : ℚ) / ((cfgC3.workers : ℕ) : ℚ) ∧
    noEarlierTimeout cfgC3 1 exitC3.state.cases = true :=
  (start_timeout_precedence tgtC3 cfgC3 (fuzzerNew tgtC3 0) 1 exitC3 1
    (countNonzero (evalOf tgtC3 cfgC3 stC3 0).1) 37
    rfl (by simp [fuzzerNew]) (by decide) (by decide) runC3).1 rfl

/-! ## Corpus behaviour (C6, C8) -/

/-- Both step outcomes' corpus databases: unchanged unless new coverage was
reported and no timeout fired, in which case the mutated input is appended
to the resolved database. -/
theorem workerStep_inputs (tgt : Target) (cfg : Config) (st : FuzzState)
    (w : Nat) :
    (∀ st2, workerStep tgt cfg st w = .inl st2 →
      st2.inputs = if (evalOf tgt cfg st w).2 then
          st.inputs.set (w % numInputDbs cfg)
            (resolvedInputDb cfg st w ++ [mutatedOf tgt cfg st w])
        else st.inputs) ∧
    (∀ e n, workerStep tgt cfg st w = .inr e → e.result = RunResult.err n →
      e.state.inputs = st.inputs) ∧
    (∀ e t, workerStep tgt cfg st w = .inr e → e.result = RunResult.ok t →
      (evalOf tgt cfg st w).2 = true ∧
      e.state.inputs = st.inputs.set (w % numInputDbs cfg)
        (resolvedInputDb cfg st w ++ [mutatedOf tgt cfg st w])) := by
  refine ⟨?_, ?_, ?_⟩
  · intro st2 h
    obtain ⟨-, hst⟩ := workerStep_inl tgt cfg st w st2 h
    cases hev : (evalOf tgt cfg st w).2 <;>
      simp only [hev, if_true, if_false, Bool.false_eq_true] at hst ⊢ <;>
      simp [hst, pushedState, baseState]
  · intro e n h hr
    rcases workerStep_inr tgt cfg st w e h with ⟨-, he⟩ | ⟨-, -, -, he⟩
    · simp [he, baseState]
    · rw [he] at hr
      exact absurd hr (by simp)
  · intro e t h hr
    rcases workerStep_inr tgt cfg st w e h with ⟨-, he⟩ | ⟨-, hev, -, he⟩
    · rw [he] at hr
      exact absurd hr (by simp)
    · exact ⟨hev, by simp [he, pushedState, baseState]⟩

/-- Appending to one corpus database never shrinks any database. -/
theorem corpus_set_mono (l : List (List Input)) (idx i : Nat)
    (x : Input) :
    (l.getD i []).length ≤
      ((l.set idx (l.getD idx [] ++ [x])).getD i []).length := by
  rw [getD_set_eq_db]
  split
  next hcond =>
    rw [← hcond.1]
    simp
  · exact le_refl _

/-- C6 (amended): every corpus database a run can resolve is empty at run
start; a worker iteration never shrinks any corpus database; and the
iteration appends the evaluated input to the resolved database exactly when
the evaluator reported new coverage, except that the iteration returning by
timeout appends nothing even if new coverage was reported (the Err return at
harness.rs lines 148-154 precedes the push at line 159). -/
theorem corpus_growth (tgt : Target) (cfg : Config)
    (prior st st2 : FuzzState) (e : ExitInfo) (w i : Nat) (n : Nat) (t : ℚ)
    (hw0 : 0 < cfg.workers) :
    (startState tgt cfg prior).inputs.getD (w % numInputDbs cfg) [] = [] ∧
    (workerStep tgt cfg st w = .inl st2 →
      (st.inputs.getD i []).length ≤ (st2.inputs.getD i []).length ∧
      st2.inputs = if (evalOf tgt cfg st w).2 then
          st.inputs.set (w % numInputDbs cfg)
            (resolvedInputDb cfg st w ++ [mutatedOf tgt cfg st w])
        else st.inputs) ∧
    (workerStep tgt cfg st w = .inr e →
      (st.inputs.getD i []).length ≤ (e.state.inputs.getD i []).length ∧
      (e.result = RunResult.err n → e.state.inputs = st.inputs) ∧
      (e.result = RunResult.ok t →
        (evalOf tgt cfg st w).2 = true ∧
        e.state.inputs = st.inputs.set (w % numInputDbs cfg)
          (resolvedInputDb cfg st w ++ [mutatedOf tgt cfg st w]))) := by
  have hn0 : 0 < numInputDbs cfg := by
    unfold numInputDbs; split <;> omega
  refine ⟨?_, ?_, ?_⟩
  · simp only [startState]
    rw [clearInputDbs_getD]
    simp [Nat.mod_lt _ hn0]
  · intro h
    have hchar := (workerStep_inputs tgt cfg st w).1 st2 h
    refine ⟨?_, hchar⟩
    rw [hchar]
    split
    · rw [resolvedInputDb]
      exact corpus_set_mono st.inputs _ i _
    · exact le_refl _
  · intro h
    rcases workerStep_inr tgt cfg st w e h with ⟨-, he⟩ | ⟨-, hev, -, he⟩
    · refine ⟨by simp [he, baseState], fun _ => by simp [he, baseState], ?_⟩
      intro hr
      rw [he] at hr
      exact absurd hr (by simp)
    · refine ⟨?_, ?_, fun _ => ⟨hev, by simp [he, pushedState, baseState]⟩⟩
      · have hst : e.state.inputs = st.inputs.set (w % numInputDbs cfg)
            (resolvedInputDb cfg st w ++ [mutatedOf tgt cfg st w]) := by
          simp [he, pushedState, baseState]
        rw [hst, resolvedInputDb]
        exact corpus_set_mono st.inputs _ i _
      · intro hr
        rw [he] at hr
        exact absurd hr (by simp)

/-- C6 counterexample to the claim as stated: on the concrete timeout run
the single worker iteration's evaluator reported new coverage, the corpus
database was empty before the iteration and is still empty at the return, so
an input is not appended on every iteration whose evaluator reported new
coverage. -/
theorem corpus_growth_counterexample :
    (evalOf tgtC3 cfgC3 stC3 0).2 = true ∧
    start tgtC3 cfgC3 (fuzzerNew tgtC3 0) 1 = some exitC3 ∧
    exitC3.state.cases = 1 ∧
    exitC3.result = RunResult.err 0 ∧
    numInputDbs cfgC3 = 1 ∧
    stC3.inputs.getD 0 [] = [] ∧
    exitC3.state.inputs.getD 0 [] = [] :=
  ⟨rfl, runC3, by decide, by decide, rfl, by decide, by decide⟩

/-- C8: on each worker iteration, if the run is coverage guided and the
resolved corpus database is non-empty the shared input buffer is overwritten
with the uniformly drawn database entry (index rand() % len) before
mutation, otherwise it is left exactly as the previous iteration's mutations
left it; either way the state carried forward holds the mutation of exactly
that selected buffer. -/
theorem input_selection (tgt : Target) (cfg : Config) (st st2 : FuzzState)
    (e : ExitInfo) (w : Nat) :
    (cfg.coverage_guided = true ∧ 0 < (resolvedInputDb cfg st w).length →
      selectInput tgt cfg st w =
        (rngNext st.rng,
          (resolvedInputDb cfg st w).getD
            (st.rng % (resolvedInputDb cfg st w).length)
            (List.replicate tgt.numBytes 0))) ∧
    (¬ (cfg.coverage_guided = true ∧ 0 < (resolvedInputDb cfg st w).length) →
      selectInput tgt cfg st w = (st.rng, st.input)) ∧
    (workerStep tgt cfg st w = .inl st2 →
      st2.input = (mutateInput (selectInput tgt cfg st w).1
        (selectInput tgt cfg st w).2).2) ∧
    (workerStep tgt cfg st w = .inr e →
      e.state.input = (mutateInput (selectInput tgt cfg st w).1
        (selectInput tgt cfg st w).2).2) := by
  refine ⟨?_, ?_, ?_, ?_⟩
  · intro hg
    rw [selectInput, if_pos hg]
  · intro hg
    rw [selectInput, if_neg hg]
  · intro h
    obtain ⟨-, hst⟩ := workerStep_inl tgt cfg st w st2 h
    split at hst <;> simp [hst, pushedState, baseState, mutatedOf]
  · intro h
    rcases workerStep_inr tgt cfg st w e h with ⟨-, he⟩ | ⟨-, -, -, he⟩ <;>
      simp [he, pushedState, baseState, mutatedOf]

/-- Extract the continuing state of a step, with a default. -/
def inlOr (x : FuzzState ⊕ ExitInfo) (d : FuzzState) : FuzzState :=
  match x with
  | .inl s => s
  | .inr _ => d

/-- Extract the exit of a step, with a default. -/
def inrOr (x : FuzzState ⊕ ExitInfo) (d : ExitInfo) : ExitInfo :=
  match x with
  | .inr e => e
  | .inl _ => d

/-- Concrete target whose evaluator never reports new coverage. -/
def tgtNoCov : Target := ⟨1, 1, fun _ c => (c, false)⟩

/-- Concrete non-guided configuration without time constraint. -/
def cfgW6 : Config := ⟨false, true, true, 1, none⟩

/-- Start state of the concrete no-coverage run. -/
def stW6 : FuzzState := startState tgtNoCov cfgW6 (fuzzerNew tgtNoCov 0)

/-- The state after one worker iteration of the no-coverage run. -/
def stW6b : FuzzState := inlOr (workerStep tgtNoCov cfgW6 stW6 0) stW6

/-- Start state of the concrete full-coverage run. -/
def stW2 : FuzzState := startState tgtC2 cfgC2 (fuzzerNew tgtC2 0)

/-- The exit of one worker iteration of the full-coverage run. -/
def eW2 : ExitInfo := inrOr (workerStep tgtC2 cfgC2 stW2 0) dummyExit

/-- Witness for C6 at concrete runs: the resolved corpus database is empty
at run start; a no-new-coverage iteration does not shrink it; a
full-coverage Ok iteration reports new coverage and appends the evaluated
input to the resolved database. -/
theorem corpus_growth_witness :
    (startState tgtNoCov cfgW6 (fuzzerNew tgtNoCov 0)).inputs.getD
      (0 % numInputDbs cfgW6) [] = [] ∧
    (stW6.inputs.getD 0 []).length ≤ (stW6b.inputs.getD 0 []).length ∧
    ((evalOf tgtC2 cfgC2 stW2 0).2 = true ∧
      eW2.state.inputs = stW2.inputs.set (0 % numInputDbs cfgC2)
        (resolvedInputDb cfgC2 stW2 0 ++ [mutatedOf tgtC2 cfgC2 stW2 0])) :=
  ⟨(corpus_growth tgtNoCov cfgW6 (fuzzerNew tgtNoCov 0) stW6 stW6b dummyExit
      0 0 0 37 (by decide)).1,
    ((corpus_growth tgtNoCov cfgW6 (fuzzerNew tgtNoCov 0) stW6 stW6b dummyExit
      0 0 0 37 (by decide)).2.1 rfl).1,
    ((corpus_growth tgtC2 cfgC2 (fuzzerNew tgtC2 0) stW2 stW2 eW2
      0 0 0 (((1 : ℕ) : ℚ) / ((1 : ℕ) : ℚ)) (by decide)).2.2 rfl).2.2 rfl⟩

/-- Concrete state with a non-empty corpus database for the C8 witness. -/
def stC8 : FuzzState := ⟨5, [7], 0, 0, [[0]], [[[9]]]⟩

/-- Witness for C8 at concrete states: a guided iteration with a non-empty
corpus selects the drawn corpus entry, a non-guided iteration keeps the
previous buffer, and the carried state holds the mutation of the selected
buffer. -/
theorem input_selection_witness :
    selectInput tgtC2 cfgC2 stC8 0 =
      (rngNext stC8.rng,
        (resolvedInputDb cfgC2 stC8 0).getD
          (stC8.rng % (resolvedInputDb cfgC2 stC8 0).length)
          (List.replicate tgtC2.numBytes 0)) ∧
    selectInput tgtNoCov cfgW6 stW6 0 = (stW6.rng, stW6.input) ∧
    stW6b.input = (mutateInput (selectInput tgtNoCov cfgW6 stW6 0).1
      (selectInput tgtNoCov cfgW6 stW6 0).2).2 :=
  ⟨(input_selection tgtC2 cfgC2 stC8 stC8 dummyExit 0).1 ⟨rfl, by decide⟩,
    (input_selection tgtNoCov cfgW6 stW6 stW6 dummyExit 0).2.1 (by decide),
    (input_selection tgtNoCov cfgW6 stW6 stW6b dummyExit 0).2.2.1 rfl⟩

/-! ## The generated program (main.rs, fn proggen)

proggen emits the body of crashme as nested byte-mask branches around
coverage and crash records.  The emitted statements are (main.rs lines
138-148, 152-169, 200-215):

coverage record (macro coverage, id = num_blocks):
  if _coverage[id] == 0 { _new_coverage.push(id) }
  _coverage[id] += 1;

crash record (macro crash, id = num_crashes):
  if _crashes[id] == 0 { _new_crashes.push(id) }
  _crashes[id] += 1;
  return;

branch (lines 200-204): if _input[start_byte] & mask == target { ... }

We embed the emitted program as a statement tree and its semantics as an
interpreter; `return` is modelled by a returned flag that freezes the rest
of the call. -/

mutual
/-- One emitted statement of the generated crashme body. -/
inductive Stmt where
  | cov (id : Nat)
  | crash (id : Nat)
  | branch (byteIdx mask targetVal : Nat) (body : Stmts)
/-- A block of emitted statements. -/
inductive Stmts where
  | nil
  | cons (s : Stmt) (rest : Stmts)
end

/-- The mutable state of one crashme call: the two counter arrays, the two
out-parameter lists of newly discovered ids, and whether the call has
executed return. -/
structure EvalState where
  cov : List Nat
  crashes : List Nat
  newCov : List Nat
  newCrashes : List Nat
  returned : Bool
deriving DecidableEq

mutual
/-- Execute one emitted statement. -/
def execStmt (input : Input) : Stmt → EvalState → EvalState
  | .cov i, s =>
    if s.returned then s
    else
      { s with
        newCov := if s.cov.getD i 0 = 0 then s.newCov ++ [i] else s.newCov
        cov := s.cov.set i (s.cov.getD i 0 + 1) }
  | .crash i, s =>
    if s.returned then s
    else
      { s with
        newCrashes :=
          if s.crashes.getD i 0 = 0 then s.newCrashes ++ [i] else s.newCrashes
        crashes := s.crashes.set i (s.crashes.getD i 0 + 1)
        returned := true }
  | .branch b m tv body, s =>
    if s.returned then s
    else if input.getD b 0 &&& m = tv then execStmts input body s
    else s
/-- Execute a block of emitted statements in order. -/
def execStmts (input : Input) : Stmts → EvalState → EvalState
  | .nil, s => s
  | .cons st rest, s => execStmts input rest (execStmt input st s)
end

mutual
/-- Number of coverage records in a statement: the generator's num_blocks
counts one per coverage macro expansion. -/
def covSitesStmt : Stmt → Nat
  | .cov _ => 1
  | .crash _ => 0
  | .branch _ _ _ body => covSitesStmts body
/-- Number of coverage records in a block. -/
def covSitesStmts : Stmts → Nat
  | .nil => 0
  | .cons s rest => covSitesStmt s + covSitesStmts rest
end

mutual
/-- Number of crash records in a statement: the generator's num_crashes
counts one per crash macro expansion. -/
def crashSitesStmt : Stmt → Nat
  | .cov _ => 0
  | .crash _ => 1
  | .branch _ _ _ body => crashSitesStmts body
/-- Number of crash records in a block. -/
def crashSitesStmts : Stmts → Nat
  | .nil => 0
  | .cons s rest => crashSitesStmt s + crashSitesStmts rest
end

mutual
/-- A returned call state is frozen under any further statement. -/
theorem execStmt_returned (input : Input) (st : Stmt) (s : EvalState)
    (h : s.returned = true) : execStmt input st s = s := by
  cases st with
  | cov i => simp [execStmt, h]
  | crash i => simp [execStmt, h]
  | branch b m tv body => simp [execStmt, h]
/-- A returned call state is frozen under any further block. -/
theorem execStmts_returned (input : Input) (sts : Stmts) (s : EvalState)
    (h : s.returned = true) : execStmts input sts s = s := by
  cases sts with
  | nil => simp [execStmts]
  | cons st rest =>
    simp only [execStmts]
    rw [execStmt_returned input st s h, execStmts_returned input rest s h]
end

mutual
/-- One statement never decreases any counter slot. -/
theorem execStmt_mono (input : Input) (st : Stmt) (s : EvalState) (j : Nat) :
    s.cov.getD j 0 ≤ (execStmt input st s).cov.getD j 0 ∧
    s.crashes.getD j 0 ≤ (execStmt input st s).crashes.getD j 0 := by
  cases st with
  | cov i =>
    by_cases h : s.returned = true
    · simp [execStmt, h]
    · simp only [execStmt, h, Bool.false_eq_true, if_false]
      refine ⟨?_, le_refl _⟩
      rw [getD_set_eq]
      split
      next hc =>
        rw [← hc.1]
        omega
      · exact le_refl _
  | crash i =>
    by_cases h : s.returned = true
    · simp [execStmt, h]
    · simp only [execStmt, h, Bool.false_eq_true, if_false]
      refine ⟨le_refl _, ?_⟩
      rw [getD_set_eq]
      split
      next hc =>
        rw [← hc.1]
        omega
      · exact le_refl _
  | branch b m tv body =>
    by_cases h : s.returned = true
    · simp [execStmt, h]
    · simp only [execStmt, h, Bool.false_eq_true, if_false]
      by_cases hc : input.getD b 0 &&& m = tv
      · rw [if_pos hc]
        exact execStmts_mono input body s j
      · rw [if_neg hc]
        exact ⟨le_refl _, le_refl _⟩
/-- One block never decreases any counter slot. -/
theorem execStmts_mono (input : Input) (sts : Stmts) (s : EvalState) (j : Nat) :
    s.cov.getD j 0 ≤ (execStmts input sts s).cov.getD j 0 ∧
    s.crashes.getD j 0 ≤ (execStmts input sts s).crashes.getD j 0 := by
  cases sts with
  | nil => simp [execStmts]
  | cons st rest =>
    simp only [execStmts]
    have h1 := execStmt_mono input st s j
    have h2 := execStmts_mono input rest (execStmt input st s) j
    exact ⟨le_trans h1.1 h2.1, le_trans h1.2 h2.2⟩
end

/-- C5: reaching a crash site increments exactly its own crash counter,
pushes its id on first discovery, and executes return, so that every
further statement or block of the same call leaves the state unchanged: no
coverage counter and no other crash counter fires after the crash site. -/
theorem crash_site_halts (input : Input) (i j : Nat) (s : EvalState)
    (rest : Stmts) (st : Stmt)
    (hret : s.returned = false) (hi : i < s.crashes.length) (hj : j ≠ i) :
    (execStmt input (.crash i) s).returned = true ∧
    (execStmt input (.crash i) s).crashes.getD i 0 =
      s.crashes.getD i 0 + 1 ∧
    (execStmt input (.crash i) s).crashes.getD j 0 = s.crashes.getD j 0 ∧
    (execStmt input (.crash i) s).cov = s.cov ∧
    execStmts input rest (execStmt input (.crash i) s) =
      execStmt input (.crash i) s ∧
    execStmt input st (execStmt input (.crash i) s) =
      execStmt input (.crash i) s := by
  have hs : execStmt input (.crash i) s =
      { s with
        newCrashes :=
          if s.crashes.getD i 0 = 0 then s.newCrashes ++ [i] else s.newCrashes
        crashes := s.crashes.set i (s.crashes.getD i 0 + 1)
        returned := true } := by
    simp [execStmt, hret]
  refine ⟨by simp [hs], ?_, ?_, by simp [hs], ?_, ?_⟩
  · rw [hs]
    simp only []
    rw [getD_set_eq, if_pos ⟨rfl, hi⟩]
  · rw [hs]
    simp only []
    rw [getD_set_eq, if_neg (by omega)]
  · exact execStmts_returned input rest _ (by simp [hs])
  · exact execStmt_returned input st _ (by simp [hs])

/-- Witness for C5 at a concrete call state. -/
theorem crash_site_halts_witness :
    (execStmt [] (.crash 0) ⟨[0], [0, 0], [], [], false⟩).returned = true ∧
    (execStmt [] (.crash 0) ⟨[0], [0, 0], [], [], false⟩).crashes.getD 0 0 =
      (⟨[0], [0, 0], [], [], false⟩ : EvalState).crashes.getD 0 0 + 1 ∧
    (execStmt [] (.crash 0) ⟨[0], [0, 0], [], [], false⟩).crashes.getD 1 0 =
      (⟨[0], [0, 0], [], [], false⟩ : EvalState).crashes.getD 1 0 ∧
    (execStmt [] (.crash 0) ⟨[0], [0, 0], [], [], false⟩).cov =
      (⟨[0], [0, 0], [], [], false⟩ : EvalState).cov ∧
    execStmts [] (.cons (.cov 0) .nil)
        (execStmt [] (.crash 0) ⟨[0], [0, 0], [], [], false⟩) =
      execStmt [] (.crash 0) ⟨[0], [0, 0], [], [], false⟩ ∧
    execStmt [] (.cov 0)
        (execStmt [] (.crash 0) ⟨[0], [0, 0], [], [], false⟩) =
      execStmt [] (.crash 0) ⟨[0], [0, 0], [], [], false⟩ :=
  crash_site_halts [] 0 1 ⟨[0], [0, 0], [], [], false⟩
    (.cons (.cov 0) .nil) (.cov 0) rfl (by decide) (by decide)

/-- C9: an evaluator call never decreases any coverage or crash counter
slot, and hence counters are non-decreasing across successive evaluator
calls within a run (two chained calls shown explicitly). -/
theorem counters_monotone (input input2 : Input) (prog prog2 : Stmts)
    (s : EvalState) (j : Nat) :
    s.cov.getD j 0 ≤ (execStmts input prog s).cov.getD j 0 ∧
    s.crashes.getD j 0 ≤ (execStmts input prog s).crashes.getD j 0 ∧
    s.cov.getD j 0 ≤
      (execStmts input2 prog2 (execStmts input prog s)).cov.getD j 0 ∧
    s.crashes.getD j 0 ≤
      (execStmts input2 prog2 (execStmts input prog s)).crashes.getD j 0 := by
  have h1 := execStmts_mono input prog s j
  have h2 := execStmts_mono input2 prog2 (execStmts input prog s) j
  exact ⟨h1.1, h1.2, le_trans h1.1 h2.1, le_trans h1.2 h2.2⟩

/-! ## Site cardinality and the evaluator call (C1) -/

/-- C1 (amended): the engine's per-worker counter databases are coverage
arrays only, each with exactly the generator-reported NUM_COVERAGE slots —
at allocation (Fuzzer::new), after the start-of-run clear, and across every
worker step, given the evaluator updates its counter array in place — and
the evaluator is invoked with exactly the input buffer and the resolved
coverage array, its updated array being written back to the resolved slot
(harness.rs line 141); the engine maintains no crash-counter array. -/
theorem site_cardinality_eval_call (tgt : Target) (cfg : Config)
    (seed : Nat) (st st2 : FuzzState) (e : ExitInfo) (w : Nat)
    (hlen : ∀ inp c, ((tgt.crashme inp c).1).length = c.length) :
    covSized tgt (fuzzerNew tgt seed) ∧
    (covSized tgt st → covSized tgt (startState tgt cfg st)) ∧
    (covSized tgt st → workerStep tgt cfg st w = .inl st2 →
      covSized tgt st2) ∧
    (covSized tgt st → workerStep tgt cfg st w = .inr e →
      covSized tgt e.state) ∧
    (workerStep tgt cfg st w = .inl st2 →
      st2.coverage = st.coverage.set (w % numOutputDbs cfg)
        (tgt.crashme (mutatedOf tgt cfg st w) (resolvedCov cfg st w)).1) ∧
    (workerStep tgt cfg st w = .inr e →
      e.state.coverage = st.coverage.set (w % numOutputDbs cfg)
        (tgt.crashme (mutatedOf tgt cfg st w) (resolvedCov cfg st w)).1) :=
  ⟨covSized_fuzzerNew tgt seed,
    fun h => covSized_startState tgt cfg st h,
    fun hP h => (covSized_workerStep tgt cfg hlen).1 st st2 w h hP,
    fun hP h => (covSized_workerStep tgt cfg hlen).2 st e w h hP,
    fun h => (workerStep_coverage tgt cfg st w).1 st2 h,
    fun h => (workerStep_coverage tgt cfg st w).2 e h⟩

/-- Witness for C1 at a concrete run: correctly sized databases at
allocation and after a concrete worker step, which writes the evaluator's
output back to the resolved slot. -/
theorem site_cardinality_eval_call_witness :
    covSized tgtNoCov (fuzzerNew tgtNoCov 0) ∧
    covSized tgtNoCov stW6b ∧
    stW6b.coverage = stW6.coverage.set (0 % numOutputDbs cfgW6)
      (tgtNoCov.crashme (mutatedOf tgtNoCov cfgW6 stW6 0)
        (resolvedCov cfgW6 stW6 0)).1 := by
  have T := site_cardinality_eval_call tgtNoCov cfgW6 0 stW6 stW6b dummyExit 0
    (fun _ _ => rfl)
  exact ⟨T.1, T.2.2.1 (covSized_startState tgtNoCov cfgW6 _ T.1) rfl,
    T.2.2.2.2.1 rfl⟩

/-- A generated program of the shape proggen emits (the root coverage
record first, crashes inside branches), with two coverage records and three
crash records: its reported site counts are NUM_COVERAGE = 2 and
NUM_CRASHES = 3. -/
def progC1 : Stmts :=
  .cons (.cov 0)
    (.cons (.branch 0 1 1 (.cons (.crash 0) .nil))
      (.cons (.branch 0 2 2 (.cons (.crash 1) .nil))
        (.cons (.branch 0 4 4 (.cons (.cov 1) (.cons (.crash 2) .nil)))
          .nil)))

/-- Engine target for the C1 counterexample: the generator-reported
coverage-site count 2 of progC1 (the engine consumes no crash-site
count: struct Fuzzer, harness.rs lines 25-59, has no crash database). -/
def tgtCE1 : Target := ⟨2, 1, fun _ c => (c.map (fun _ => 1), true)⟩

/-- Configuration of the concrete C1 counterexample run. -/
def cfgCE1 : Config := ⟨true, true, true, 1, none⟩

/-- Exit of the concrete C1 counterexample run (full coverage on case 1). -/
def exitCE1 : ExitInfo :=
  (start tgtCE1 cfgCE1 (fuzzerNew tgtCE1 0) 1).getD dummyExit

set_option maxRecDepth 6000 in
/-- C1 counterexample to the claim as stated: for a generated target
reporting 2 coverage sites and 3 crash sites, every counter array the
engine run operates on (the state's coverage databases — the only counter
arrays struct Fuzzer holds) has exactly 2 slots, both at allocation and at
the run's return; no array with num_crash_sites = 3 slots exists anywhere
in the run, so the run operates on no crash-counter array of the reported
size, and the evaluator is not called with one. -/
theorem site_cardinality_counterexample :
    covSitesStmts progC1 = 2 ∧
    crashSitesStmts progC1 = 3 ∧
    (fuzzerNew tgtCE1 0).coverage.all (fun c => c.length == 2) = true ∧
    start tgtCE1 cfgCE1 (fuzzerNew tgtCE1 0) 1 = some exitCE1 ∧
    exitCE1.state.coverage.all (fun c => c.length == 2) = true ∧
    exitCE1.state.coverage.all (fun c => decide (c.length ≠ 3)) = true :=
  ⟨by decide, by decide, by decide, rfl, by decide, by decide⟩

end Fuzztheory
